import Mathlib

/-!
Verification of the evolutionary latent-image engine of this repository
(files projet/idkit/algen.py and projet/src/algen.py) against its
natural-language specification.

Embedding conventions.
* A rank-2 torch tensor (one encoded image, spec LatentVector) is a Mat,
  a list of rows of rationals; a rank-3 tensor (spec LatentPopulation) is
  a list of Mat.
* Random draws (torch.rand, torch.randn) are threaded as explicit
  function parameters indexed by member, row and column; theorems about
  draws from the unit interval carry the corresponding hypotheses.
* torch.dist(a, b, p=2) is the square root of the sum of squared
  componentwise differences.  Square roots of rationals are irrational in
  general, so the embedding compares distances through their squares
  (dist2 below): argmin and argmax are invariant under the strictly
  monotone square root, so every selection made by the code is preserved
  exactly.  Where a claim speaks about genuine Euclidean distances the
  statements use Real.sqrt applied to dist2 inside propositions.
* torch.std needs a square root as well; mutate_img receives an
  uninterpreted function sqrtQ standing for it.  No settled claim
  depends on the numeric value of the standard deviation.
* Python exceptions are modelled with Except AlgenError; a torch
  RuntimeError from argmin on an empty tensor is the emptyInput kind.
-/

/-- One encoded image: a rank-2 tensor as a list of rows of rationals. -/
abbrev Mat : Type := List (List ℚ)

/-- Element access with the torch out-of-range positions irrelevant:
all uses are guarded by shape facts. -/
def mget (m : Mat) (r c : Nat) : ℚ := (m.getD r []).getD c 0

/-- Map over a list with the index of each element, starting at n. -/
def idxMap (f : Nat → α → β) : Nat → List α → List β
  | _, [] => []
  | n, x :: xs => f n x :: idxMap f (n + 1) xs

/-- Elementwise map over a rank-2 tensor with row and column indices,
the shape of torch.where and of the masked assignments in the source. -/
def mmapIdx (f : Nat → Nat → ℚ → ℚ) (m : Mat) : Mat :=
  idxMap (fun r row => idxMap (fun c x => f r c x) 0 row) 0 m

/-- Squared Euclidean distance between two rank-2 tensors: the sum of
squared componentwise differences.  torch.dist(a, b, p=2) is its square
root. -/
def dist2 (a b : Mat) : ℚ :=
  (List.zipWith (fun x y => (x - y) ^ 2) a.flatten b.flatten).sum

/-- torch mean over all components of a rank-2 tensor. -/
def tmean (m : Mat) : ℚ := m.flatten.sum / (m.flatten.length : ℚ)

/-- Unbiased variance over all components, the square of torch.std
(torch divides by N - 1).  For tensors with at most one component torch
returns NaN; the embedding returns 0 there, and no settled claim
evaluates this case. -/
def tvarU (m : Mat) : ℚ :=
  ((m.flatten.map (fun x => (x - tmean m) ^ 2)).sum) /
    ((m.flatten.length - 1 : Nat) : ℚ)

/-- Index and value of the first minimum of a list of scores, the
documented behaviour of torch.argmin (first minimal index on ties). -/
def argminF : List ℚ → Nat × ℚ
  | [] => (0, 0)
  | [x] => (0, x)
  | x :: y :: l =>
    if (argminF (y :: l)).2 < x then
      ((argminF (y :: l)).1 + 1, (argminF (y :: l)).2)
    else (0, x)

/-- Index and value of the first maximum of a list of scores, the
documented behaviour of torch.argmax (first maximal index on ties). -/
def argmaxF : List ℚ → Nat × ℚ
  | [] => (0, 0)
  | [x] => (0, x)
  | x :: y :: l =>
    if x < (argmaxF (y :: l)).2 then
      ((argmaxF (y :: l)).1 + 1, (argmaxF (y :: l)).2)
    else (0, x)

/-- Error kinds of the engine.  valueError carries the offending field,
the allowed values and the rejected value, mirroring the ValueError
messages of mutate_img.  emptyInput is the torch RuntimeError raised by
argmin on an empty tensor.  insufficientPopulation is the kind the
specification prescribes for undersized populations; the code never
produces it. -/
inductive AlgenError : Type where
  | valueError (field : String) (allowed : List String) (got : String)
  | emptyInput : AlgenError
  | insufficientPopulation : AlgenError
  deriving DecidableEq, Repr

/-- Left-to-right effectful map over Except, aborting at the first
error: the semantics of a Python for-loop whose body may raise. -/
def mapExcept (f : α → Except ε β) : List α → Except ε (List β)
  | [] => .ok []
  | x :: xs =>
    match f x with
    | .error e => .error e
    | .ok y =>
      match mapExcept f xs with
      | .error e => .error e
      | .ok ys => .ok (y :: ys)

/-- Shape predicate: a rank-2 tensor with r rows of c columns each. -/
def MatWF (r c : Nat) (m : Mat) : Prop :=
  m.length = r ∧ ∀ row ∈ m, row.length = c

/-- Shape predicate for a population: every member is an r by c tensor. -/
def PopWF (r c : Nat) (pop : List Mat) : Prop :=
  ∀ m ∈ pop, MatWF r c m

instance : DecidablePred (MatWF r c) := fun _ =>
  inferInstanceAs (Decidable (_ ∧ _))

instance : DecidablePred (PopWF r c) := fun _ =>
  List.decidableBAll _ _

theorem length_idxMap (f : Nat → α → β) (n : Nat) (l : List α) :
    (idxMap f n l).length = l.length := by
  induction l generalizing n with
  | nil => rfl
  | cons x xs ih => simp [idxMap, ih]

theorem getD_idxMap (f : Nat → α → α) (n : Nat) (l : List α) (d : α)
    (i : Nat) (hi : i < l.length) :
    (idxMap f n l).getD i d = f (n + i) (l.getD i d) := by
  induction l generalizing n i with
  | nil => simp at hi
  | cons x xs ih =>
    cases i with
    | zero => simp [idxMap]
    | succ j =>
      have hj : j < xs.length := Nat.lt_of_succ_lt_succ hi
      simp only [idxMap, List.getD_cons_succ]
      rw [ih (n + 1) j hj]
      ring_nf

theorem idxMap_congr {f g : Nat → α → β} (n : Nat) (l : List α)
    (h : ∀ i x, f i x = g i x) : idxMap f n l = idxMap g n l := by
  induction l generalizing n with
  | nil => rfl
  | cons x xs ih => simp [idxMap, h, ih]

theorem idxMap_id (n : Nat) (l : List α) :
    idxMap (fun _ x => x) n l = l := by
  induction l generalizing n with
  | nil => rfl
  | cons x xs ih => simp [idxMap, ih]

theorem mmapIdx_id (m : Mat) : mmapIdx (fun _ _ x => x) m = m := by
  unfold mmapIdx
  rw [idxMap_congr 0 m (fun i x => idxMap_id 0 x)]
  exact idxMap_id 0 m

theorem mmapIdx_congr {f g : Nat → Nat → ℚ → ℚ} (m : Mat)
    (h : ∀ r c x, f r c x = g r c x) : mmapIdx f m = mmapIdx g m := by
  unfold mmapIdx
  exact idxMap_congr 0 m (fun r row => idxMap_congr 0 row (fun c x => h r c x))

theorem length_mmapIdx (f : Nat → Nat → ℚ → ℚ) (m : Mat) :
    (mmapIdx f m).length = m.length := length_idxMap _ _ _

theorem mget_mmapIdx (f : Nat → Nat → ℚ → ℚ) (m : Mat) (r c : Nat)
    (hr : r < m.length) (hc : c < (m.getD r []).length) :
    mget (mmapIdx f m) r c = f r c (mget m r c) := by
  unfold mmapIdx mget
  rw [getD_idxMap _ 0 m [] r hr, Nat.zero_add,
    getD_idxMap _ 0 (m.getD r []) 0 c hc, Nat.zero_add]

theorem range_map_getD (l : List α) (d : α) :
    (List.range l.length).map (fun i => l.getD i d) = l := by
  induction l with
  | nil => rfl
  | cons x xs ih =>
    rw [List.length_cons, List.range_succ_eq_map, List.map_cons, List.map_map]
    simp only [List.getD_cons_zero, Function.comp_def, List.getD_cons_succ]
    rw [ih]

theorem getD_map_range (n : Nat) (d : α) :
    ∀ (g : Nat → α) (i : Nat), i < n → (((List.range n).map g).getD i d) = g i := by
  induction n with
  | zero => intro g i hi; omega
  | succ k ih =>
    intro g i hi
    rw [List.range_succ_eq_map, List.map_cons, List.map_map]
    cases i with
    | zero => simp
    | succ j =>
      have hj : j < k := Nat.lt_of_succ_lt_succ hi
      rw [List.getD_cons_succ]
      exact ih (g ∘ Nat.succ) j hj

theorem argminF_fst_lt : ∀ l : List ℚ, l ≠ [] → (argminF l).1 < l.length
  | [], h => absurd rfl h
  | [_], _ => by simp [argminF]
  | x :: y :: l, _ => by
    have ih := argminF_fst_lt (y :: l) (by simp)
    by_cases hc : (argminF (y :: l)).2 < x
    · simp only [argminF, if_pos hc, List.length_cons]
      simp only [List.length_cons] at ih
      omega
    · simp [argminF, if_neg hc]

theorem argminF_getD : ∀ l : List ℚ, l.getD (argminF l).1 0 = (argminF l).2
  | [] => rfl
  | [_] => by simp [argminF]
  | x :: y :: l => by
    have ih := argminF_getD (y :: l)
    by_cases hc : (argminF (y :: l)).2 < x
    · simp only [argminF, if_pos hc, List.getD_cons_succ]
      exact ih
    · simp [argminF, if_neg hc]

theorem argminF_le : ∀ (l : List ℚ) (j : Nat), j < l.length →
    (argminF l).2 ≤ l.getD j 0
  | [], j, hj => by simp at hj
  | [x], j, hj => by
    simp only [List.length_singleton] at hj
    have hj0 : j = 0 := by omega
    subst hj0
    simp [argminF]
  | x :: y :: l, j, hj => by
    by_cases hc : (argminF (y :: l)).2 < x
    · simp only [argminF, if_pos hc]
      cases j with
      | zero => simpa using le_of_lt hc
      | succ k =>
        have hk : k < (y :: l).length := by
          simpa [Nat.succ_lt_succ_iff] using hj
        simpa using argminF_le (y :: l) k hk
    · simp only [argminF, if_neg hc]
      cases j with
      | zero => simp
      | succ k =>
        have hk : k < (y :: l).length := by
          simpa [Nat.succ_lt_succ_iff] using hj
        have h1 := argminF_le (y :: l) k hk
        have h2 : x ≤ (argminF (y :: l)).2 := le_of_not_lt hc
        simpa using le_trans h2 h1

theorem argminF_first : ∀ (l : List ℚ) (j : Nat), j < (argminF l).1 →
    (argminF l).2 < l.getD j 0
  | [], j, hj => by simp [argminF] at hj
  | [x], j, hj => by simp [argminF] at hj
  | x :: y :: l, j, hj => by
    by_cases hc : (argminF (y :: l)).2 < x
    · simp only [argminF, if_pos hc] at hj ⊢
      cases j with
      | zero => simpa using hc
      | succ k =>
        have hk : k < (argminF (y :: l)).1 := by omega
        simpa using argminF_first (y :: l) k hk
    · simp only [argminF, if_neg hc] at hj
      omega

theorem argmaxF_fst_lt : ∀ l : List ℚ, l ≠ [] → (argmaxF l).1 < l.length
  | [], h => absurd rfl h
  | [_], _ => by simp [argmaxF]
  | x :: y :: l, _ => by
    have ih := argmaxF_fst_lt (y :: l) (by simp)
    by_cases hc : x < (argmaxF (y :: l)).2
    · simp only [argmaxF, if_pos hc, List.length_cons]
      simp only [List.length_cons] at ih
      omega
    · simp [argmaxF, if_neg hc]

theorem argmaxF_getD : ∀ l : List ℚ, l.getD (argmaxF l).1 0 = (argmaxF l).2
  | [] => rfl
  | [_] => by simp [argmaxF]
  | x :: y :: l => by
    have ih := argmaxF_getD (y :: l)
    by_cases hc : x < (argmaxF (y :: l)).2
    · simp only [argmaxF, if_pos hc, List.getD_cons_succ]
      exact ih
    · simp [argmaxF, if_neg hc]

theorem argmaxF_ge : ∀ (l : List ℚ) (j : Nat), j < l.length →
    l.getD j 0 ≤ (argmaxF l).2
  | [], j, hj => by simp at hj
  | [x], j, hj => by
    simp only [List.length_singleton] at hj
    have hj0 : j = 0 := by omega
    subst hj0
    simp [argmaxF]
  | x :: y :: l, j, hj => by
    by_cases hc : x < (argmaxF (y :: l)).2
    · simp only [argmaxF, if_pos hc]
      cases j with
      | zero => simpa using le_of_lt hc
      | succ k =>
        have hk : k < (y :: l).length := by
          simpa [Nat.succ_lt_succ_iff] using hj
        simpa using argmaxF_ge (y :: l) k hk
    · simp only [argmaxF, if_neg hc]
      cases j with
      | zero => simp
      | succ k =>
        have hk : k < (y :: l).length := by
          simpa [Nat.succ_lt_succ_iff] using hj
        have h1 := argmaxF_ge (y :: l) k hk
        have h2 : (argmaxF (y :: l)).2 ≤ x := le_of_not_lt hc
        simpa using le_trans h1 h2

theorem argmaxF_first : ∀ (l : List ℚ) (j : Nat), j < (argmaxF l).1 →
    l.getD j 0 < (argmaxF l).2
  | [], j, hj => by simp [argmaxF] at hj
  | [x], j, hj => by simp [argmaxF] at hj
  | x :: y :: l, j, hj => by
    by_cases hc : x < (argmaxF (y :: l)).2
    · simp only [argmaxF, if_pos hc] at hj ⊢
      cases j with
      | zero => simpa using hc
      | succ k =>
        have hk : k < (argmaxF (y :: l)).1 := by omega
        simpa using argmaxF_first (y :: l) k hk
    · simp only [argmaxF, if_neg hc] at hj
      omega

theorem mapExcept_ok_of (f : α → Except ε β) (g : α → β) :
    ∀ l : List α, (∀ a ∈ l, f a = .ok (g a)) →
      mapExcept f l = .ok (l.map g) := by
  intro l
  induction l with
  | nil => intro _; rfl
  | cons x xs ih =>
    intro h
    have hx := h x (by simp)
    have hxs := ih (fun a ha => h a (by simp [ha]))
    simp [mapExcept, hx, hxs]

theorem mapExcept_error_head (f : α → Except ε β) (x : α) (xs : List α)
    (e : ε) (h : f x = .error e) : mapExcept f (x :: xs) = .error e := by
  simp [mapExcept, h]

theorem maskFilter_eq_eraseIdx (l : List α) (d : α) :
    ∀ k : Nat, (List.range l.length).filterMap
      (fun i => if i = k then none else some (l.getD i d)) = l.eraseIdx k := by
  induction l with
  | nil => intro k; rfl
  | cons x xs ih =>
    intro k
    rw [List.length_cons, List.range_succ_eq_map, List.filterMap_cons,
      List.filterMap_map]
    cases k with
    | zero =>
      simp only [if_pos rfl]
      have hfun : ((fun i => if i = 0 then none
            else some ((x :: xs).getD i d)) ∘ Nat.succ)
          = (fun i => some (xs.getD i d)) := by
        funext i
        simp [Function.comp]
      rw [hfun]
      have hsome : (fun i => some (xs.getD i d))
          = some ∘ (fun i => xs.getD i d) := rfl
      rw [hsome, List.filterMap_eq_map, range_map_getD]
      rfl
    | succ j =>
      have hne : ¬ ((0 : Nat) = j + 1) := by omega
      simp only [if_neg hne]
      have hfun : ((fun i => if i = j + 1 then none
            else some ((x :: xs).getD i d)) ∘ Nat.succ)
          = (fun i => if i = j then none else some (xs.getD i d)) := by
        funext i
        by_cases h : i = j <;> simp [Function.comp, h]
      rw [hfun, ih j]
      rfl

theorem dist2_nonneg (a b : Mat) : 0 ≤ dist2 a b := by
  unfold dist2
  generalize a.flatten = xs
  generalize b.flatten = ys
  induction xs generalizing ys with
  | nil => simp
  | cons x xs ih =>
    cases ys with
    | nil => simp
    | cons y ys =>
      rw [List.zipWith_cons_cons, List.sum_cons]
      have h1 : (0 : ℚ) ≤ (x - y) ^ 2 := sq_nonneg _
      have h2 := ih ys
      linarith

/-- Function chose_closest_tensor of projet/idkit/algen.py, identical in
projet/src/algen.py.  Computes the Euclidean distance from the input to
each candidate and picks the argmin candidate; torch.dist is the square
root of dist2 and argmin is invariant under the strictly monotone square
root, so the embedding compares through dist2.  torch.argmin raises a
RuntimeError on an empty tensor, modelled as the emptyInput error. -/
def chose_closest_tensor (input_tensor : Mat) (other_tensors : List Mat) :
    Except AlgenError Mat :=
  if other_tensors.isEmpty then .error .emptyInput
  else
    .ok (other_tensors.getD
      (argminF (other_tensors.map (fun t => dist2 input_tensor t))).1 [])

deriving instance DecidableEq for Except

/-- A torch tensor argument of mutate_img: rank 2 (one image) or rank 3
(a population).  The source dispatches on tensor_encoded.dim(). -/
inductive TorchTensor : Type where
  | t2 (m : Mat)
  | t3 (pop : List Mat)
  deriving DecidableEq, Repr

/-- Result of a mutate_img call: the returned value together with the
contents of the caller-owned input tensor after the call, which the
rank-2 branches of the source may have written in place. -/
structure MutateResult : Type where
  ret : Except AlgenError TorchTensor
  inputAfter : TorchTensor
  deriving DecidableEq, Repr

namespace idkit

/-- The sub-tensor other_tensor of crossing_over in
projet/idkit/algen.py: the source builds the boolean list
is_not_this_tensor from torch.equal comparisons against the member at
index i and selects with it, i.e. it keeps exactly the members whose
values differ from that member. -/
def other_tensor (pop : List Mat) (i : Nat) : List Mat :=
  pop.filter (fun t => decide (¬ t = pop.getD i []))

/-- The donor member chosen for member i, [] when chose_closest_tensor
fails on an empty candidate set. -/
def chosen (pop : List Mat) (i : Nat) : Mat :=
  match chose_closest_tensor (pop.getD i []) (other_tensor pop i) with
  | .ok c => c
  | .error _ => []

/-- Function crossing_over of projet/idkit/algen.py.  For each member in
order: build the candidate set by value inequality, choose the closest
candidate, draw one uniform value per component (u i r c) and take the
donor component where the draw is below the crossing rate (torch.where),
reading everything from the unmodified input population and writing into
a fresh output tensor. -/
def crossing_over (tensor_encoded : List Mat) (crossing_rate : ℚ)
    (u : Nat → Nat → Nat → ℚ) : Except AlgenError (List Mat) :=
  mapExcept (fun i =>
      match chose_closest_tensor (tensor_encoded.getD i [])
          (other_tensor tensor_encoded i) with
      | .error e => .error e
      | .ok chosen_tensor =>
        .ok (mmapIdx (fun r c x =>
          if u i r c < crossing_rate then mget chosen_tensor r c else x)
          (tensor_encoded.getD i [])))
    (List.range tensor_encoded.length)

/-- The aggregate dist_tensor of remove_worst_tensor:
torch.dist(tensor, input_tensor) broadcasts the member against the whole
population, so it equals the square root of the sum of the squared
distances to every member (the self term adds 0).  argmax is invariant
under the square root, so the embedding stores the squared aggregate. -/
def dist_tensor (pop : List Mat) : List ℚ :=
  pop.map (fun t => (pop.map (fun s => dist2 t s)).sum)

/-- The index remove_worst_tensor removes: first argmax of the
aggregate. -/
def worstIdx (pop : List Mat) : Nat := (argmaxF (dist_tensor pop)).1

/-- Function remove_worst_tensor of projet/idkit/algen.py.  Builds the
aggregate distances, the boolean keep-mask that is False exactly at the
argmax index, and keeps the other members.  The source has no population
size guard and no raise statement; on an empty population the Python
comprehension never evaluates torch.argmax and the mask selection
returns the empty tensor, so every path returns, and the result is
wrapped in .ok only so that claims about failure are statable. -/
def remove_worst_tensor (input_tensor : List Mat) :
    Except AlgenError (List Mat) :=
  .ok ((List.range input_tensor.length).filterMap
    (fun i => if i = worstIdx input_tensor then none
      else some (input_tensor.getD i [])))

/-- Function create_new_images of projet/idkit/algen.py between its
codec boundaries: flatten_img (encode) produces img_encoded_tensor and
deflatten_img (decode) plus the image saving consume the surviving
tensors; the codec and persistence are external collaborators in the
specification, so the embedding covers the latent-space pipeline.  The
crossing rate is the hard-coded 0.5 of the source. -/
def create_new_images (img_encoded_tensor : List Mat)
    (u1 u2 : Nat → Nat → Nat → ℚ) : Except AlgenError (List Mat) :=
  match crossing_over img_encoded_tensor (1/2) u1 with
  | .error e => .error e
  | .ok crossed_img =>
    match crossing_over img_encoded_tensor (1/2) u2 with
    | .error e => .error e
    | .ok more_crossing => remove_worst_tensor (crossed_img ++ more_crossing)

/-- Rank-2 branch of mutate_img in projet/idkit/algen.py.  The source
binds img_mut to tensor_encoded itself, so the masked += of add/partial,
the += of add/total and the masked assignment of reconstruct/partial all
write through to the caller tensor; reconstruct/total rebinds img_mut to
a fresh tensor and leaves the input intact.  The pair returned is
(returned value, contents of the caller tensor after the call).  u are
the torch.rand draws, g the torch.randn draws, sqrtQ the square root
inside torch.std. -/
def mutate2 (sqrtQ : ℚ → ℚ) (tensor_encoded : Mat) (mutation_rate : ℚ)
    (mode scale : String) (u g : Nat → Nat → ℚ) :
    Except AlgenError Mat × Mat :=
  if mode = "add" then
    if scale = "partial" then
      let img_mut := mmapIdx (fun r c x =>
        if u r c < mutation_rate then x + g r c else x) tensor_encoded
      (.ok img_mut, img_mut)
    else if scale = "total" then
      let img_mut := mmapIdx (fun r c x => x + g r c) tensor_encoded
      (.ok img_mut, img_mut)
    else (.error (.valueError "scale" ["partial", "total"] scale),
      tensor_encoded)
  else if mode = "reconstruct" then
    let mu := tmean tensor_encoded
    let std := sqrtQ (tvarU tensor_encoded)
    if scale = "partial" then
      let img_mut := mmapIdx (fun r c x =>
        if u r c < mutation_rate then mu + g r c * std else x) tensor_encoded
      (.ok img_mut, img_mut)
    else if scale = "total" then
      (.ok (mmapIdx (fun r c _ => mu + g r c * std) tensor_encoded),
        tensor_encoded)
    else (.error (.valueError "scale" ["partial", "total"] scale),
      tensor_encoded)
  else (.error (.valueError "mode" ["add", "reconstruct"] mode),
    tensor_encoded)

/-- Per-member body of the rank-3 branch of mutate_img in
projet/idkit/algen.py.  All rank-3 paths build new tensors with
torch.where or fresh arithmetic and never write into the input.  In the
reconstruct arm the source has no else branch for an unrecognized scale:
img_mut is left as the unmodified input member and stored into the
output tensor, so that combination returns instead of raising. -/
def mutate3member (sqrtQ : ℚ → ℚ) (mutation_rate : ℚ) (mode scale : String)
    (u g : Nat → Nat → ℚ) (tensor : Mat) : Except AlgenError Mat :=
  if mode = "add" then
    if scale = "partial" then
      .ok (mmapIdx (fun r c x =>
        if u r c < mutation_rate then g r c + x else x) tensor)
    else if scale = "total" then
      .ok (mmapIdx (fun r c x => x + g r c) tensor)
    else .error (.valueError "scale" ["partial", "total"] scale)
  else if mode = "reconstruct" then
    let mu := tmean tensor
    let std := sqrtQ (tvarU tensor)
    if scale = "partial" then
      .ok (mmapIdx (fun r c x =>
        if u r c < mutation_rate then mu + g r c * std else x) tensor)
    else if scale = "total" then
      .ok (mmapIdx (fun r c _ => mu + g r c * std) tensor)
    else .ok tensor
  else .error (.valueError "mode" ["add", "reconstruct"] mode)

/-- Function mutate_img of projet/idkit/algen.py (the version of
projet/src/algen.py is identical up to a scalar coefficient on the
noise, immaterial to the settled claims).  Dispatches on the tensor
rank; the rank-2 branch may write the caller tensor in place, the
rank-3 branch loops over the members into a fresh global tensor and
raises, when it raises, at the first member.  Draws are indexed by
member, row, column; the rank-2 branch uses the member-0 slice. -/
def mutate_img (sqrtQ : ℚ → ℚ) (tensor_encoded : TorchTensor)
    (mutation_rate : ℚ) (mode scale : String)
    (u g : Nat → Nat → Nat → ℚ) : MutateResult :=
  match tensor_encoded with
  | .t2 m =>
    let p := mutate2 sqrtQ m mutation_rate mode scale (u 0) (g 0)
    { ret := p.1.map .t2, inputAfter := .t2 p.2 }
  | .t3 pop =>
    { ret := (mapExcept (fun i =>
        mutate3member sqrtQ mutation_rate mode scale (u i) (g i)
          (pop.getD i [])) (List.range pop.length)).map .t3,
      inputAfter := .t3 pop }

end idkit

namespace src

/-- The candidate set of crossing_over in projet/src/algen.py: other_ind
is the list of indices different from i, and the candidates are the
members at those indices. -/
def other_tensors (pop : List Mat) (i : Nat) : List Mat :=
  ((List.range pop.length).filter (fun k => decide (¬ k = i))).map
    (fun k => pop.getD k [])

/-- The donor member chosen for member i, [] when chose_closest_tensor
fails on an empty candidate set. -/
def chosen (pop : List Mat) (i : Nat) : Mat :=
  match chose_closest_tensor (pop.getD i []) (other_tensors pop i) with
  | .ok c => c
  | .error _ => []

/-- Function crossing_over of projet/src/algen.py.  Same per-member
structure as the idkit version but the exclusion set is built by index
rather than by value equality. -/
def crossing_over (tensor_encoded : List Mat) (crossing_rate : ℚ)
    (u : Nat → Nat → Nat → ℚ) : Except AlgenError (List Mat) :=
  mapExcept (fun i =>
      match chose_closest_tensor (tensor_encoded.getD i [])
          (other_tensors tensor_encoded i) with
      | .error e => .error e
      | .ok chosen_tensor =>
        .ok (mmapIdx (fun r c x =>
          if u i r c < crossing_rate then mget chosen_tensor r c else x)
          (tensor_encoded.getD i [])))
    (List.range tensor_encoded.length)

end src

/-- Spec-side comparison of aggregate Euclidean distances: the sum, over
every other member j, of the genuine Euclidean distance (real square
root of dist2) from member a is at most the corresponding sum for
member b.  This is the culling criterion stated by the specification. -/
def sumDistLe (pop : List Mat) (a b : Nat) : Prop :=
  (Finset.range pop.length).sum (fun j =>
      if j = a then (0 : ℝ)
      else Real.sqrt ((dist2 (pop.getD a []) (pop.getD j []) : ℝ))) ≤
  (Finset.range pop.length).sum (fun j =>
      if j = b then (0 : ℝ)
      else Real.sqrt ((dist2 (pop.getD b []) (pop.getD j []) : ℝ)))

/-- Modelled from the spec: member i maximizes the sum of pairwise
Euclidean distances to every other member and is the first index
achieving the maximum, the removal rule the specification prescribes
for cull. -/
def IsSpecWorst (pop : List Mat) (i : Nat) : Prop :=
  i < pop.length ∧ (∀ j, j < pop.length → sumDistLe pop j i) ∧
    (∀ j, j < i → ¬ sumDistLe pop i j)

/-- Aggregate the code maximizes: the sum of squared pairwise distances
from member i to every member, the square of the broadcast
torch.dist(member, population). -/
def sumSqDist (pop : List Mat) (i : Nat) : ℚ :=
  (pop.map (fun s => dist2 (pop.getD i []) s)).sum

/-- Member i maximizes the sum of squared pairwise distances and is the
first index achieving the maximum: the removal rule remove_worst_tensor
actually implements. -/
def IsSqWorst (pop : List Mat) (i : Nat) : Prop :=
  i < pop.length ∧ (∀ j, j < pop.length → sumSqDist pop j ≤ sumSqDist pop i) ∧
    (∀ j, j < i → sumSqDist pop j < sumSqDist pop i)

/-- Comparison of genuine Euclidean distances to a target, through the
real square root of dist2. -/
def distLeReal (t a b : Mat) : Prop :=
  Real.sqrt ((dist2 t a : ℝ)) ≤ Real.sqrt ((dist2 t b : ℝ))

theorem getD_map (f : α → β) (l : List α) (d : α) (d2 : β) :
    ∀ i : Nat, i < l.length → (l.map f).getD i d2 = f (l.getD i d) := by
  induction l with
  | nil => intro i hi; simp at hi
  | cons x xs ih =>
    intro i hi
    cases i with
    | zero => simp
    | succ j =>
      simp only [List.map_cons, List.getD_cons_succ]
      exact ih j (by simpa [Nat.succ_lt_succ_iff] using hi)

theorem chose_closest_ok (t : Mat) (others : List Mat) (h : others ≠ []) :
    chose_closest_tensor t others =
      .ok (others.getD (argminF (others.map (fun s => dist2 t s))).1 []) := by
  unfold chose_closest_tensor
  rw [if_neg (by simpa [List.isEmpty_iff] using h)]

theorem chose_closest_nil (t : Mat) :
    chose_closest_tensor t [] = .error .emptyInput := rfl

theorem remove_worst_eq (pop : List Mat) :
    idkit.remove_worst_tensor pop = .ok (pop.eraseIdx (idkit.worstIdx pop)) := by
  unfold idkit.remove_worst_tensor
  rw [maskFilter_eq_eraseIdx pop [] (idkit.worstIdx pop)]

theorem dist_tensor_getD (pop : List Mat) (j : Nat) (hj : j < pop.length) :
    (idkit.dist_tensor pop).getD j 0 = sumSqDist pop j := by
  unfold idkit.dist_tensor sumSqDist
  exact getD_map _ pop [] 0 j hj

theorem worstIdx_lt (pop : List Mat) (h1 : 1 ≤ pop.length) :
    idkit.worstIdx pop < pop.length := by
  have hne : idkit.dist_tensor pop ≠ [] := by
    unfold idkit.dist_tensor
    intro h
    rw [List.map_eq_nil_iff] at h
    simp [h] at h1
  have := argmaxF_fst_lt (idkit.dist_tensor pop) hne
  unfold idkit.worstIdx
  simpa [idkit.dist_tensor] using this

theorem worstIdx_isSqWorst (pop : List Mat) (h1 : 1 ≤ pop.length) :
    IsSqWorst pop (idkit.worstIdx pop) := by
  have hlt := worstIdx_lt pop h1
  have hgetD : (idkit.dist_tensor pop).getD
      (argmaxF (idkit.dist_tensor pop)).1 0
      = sumSqDist pop (idkit.worstIdx pop) :=
    dist_tensor_getD pop (idkit.worstIdx pop) hlt
  have hmax := argmaxF_getD (idkit.dist_tensor pop)
  refine ⟨hlt, ?_, ?_⟩
  · intro j hj
    have ha := argmaxF_ge (idkit.dist_tensor pop) j
      (by simpa [idkit.dist_tensor] using hj)
    rw [dist_tensor_getD pop j hj, ← hmax, hgetD] at ha
    exact ha
  · intro j hj
    have hj2 : j < pop.length := lt_trans hj hlt
    have ha := argmaxF_first (idkit.dist_tensor pop) j hj
    rw [dist_tensor_getD pop j hj2, ← hmax, hgetD] at ha
    exact ha

theorem src_other_tensors_ne_nil (pop : List Mat) (i : Nat)
    (h2 : 2 ≤ pop.length) : src.other_tensors pop i ≠ [] := by
  unfold src.other_tensors
  intro h
  rw [List.map_eq_nil_iff] at h
  by_cases hi : i = 0
  · have h1 : (1 : Nat) ∈ (List.range pop.length).filter
        (fun k => decide (¬ k = i)) := by
      rw [List.mem_filter]
      refine ⟨by rw [List.mem_range]; omega, by simp [hi]⟩
    rw [h] at h1
    exact absurd h1 (List.not_mem_nil _)
  · have h1 : (0 : Nat) ∈ (List.range pop.length).filter
        (fun k => decide (¬ k = i)) := by
      rw [List.mem_filter]
      refine ⟨by rw [List.mem_range]; omega, by simp [Ne.symm hi]⟩
    rw [h] at h1
    exact absurd h1 (List.not_mem_nil _)

theorem src_chosen_eq (pop : List Mat) (i : Nat)
    (h : src.other_tensors pop i ≠ []) :
    src.chosen pop i = (src.other_tensors pop i).getD
      (argminF ((src.other_tensors pop i).map
        (fun s => dist2 (pop.getD i []) s))).1 [] := by
  unfold src.chosen
  rw [chose_closest_ok _ _ h]

theorem src_crossing_over_ok (pop : List Mat) (rate : ℚ)
    (u : Nat → Nat → Nat → ℚ) (h2 : 2 ≤ pop.length) :
    src.crossing_over pop rate u = .ok ((List.range pop.length).map
      (fun i => mmapIdx (fun r c x =>
        if u i r c < rate then mget (src.chosen pop i) r c else x)
        (pop.getD i []))) := by
  unfold src.crossing_over
  apply mapExcept_ok_of
  intro i _
  have hne := src_other_tensors_ne_nil pop i h2
  rw [chose_closest_ok _ _ hne]
  have hch := src_chosen_eq pop i hne
  rw [← hch]

theorem idkit_other_tensor_ne_nil (pop : List Mat) (i : Nat)
    (h2 : 2 ≤ pop.length) (hi : i < pop.length)
    (hd : pop.Pairwise (· ≠ ·)) :
    idkit.other_tensor pop i ≠ [] := by
  unfold idkit.other_tensor
  intro h
  set j : Nat := if i = 0 then 1 else 0 with hjdef
  have hj : j < pop.length := by
    by_cases hi0 : i = 0 <;> simp [hjdef, hi0] <;> omega
  have hji : j ≠ i := by
    by_cases hi0 : i = 0 <;> simp [hjdef, hi0]
    omega
  have hval : pop.getD j [] ≠ pop.getD i [] := by
    rw [List.getD_eq_getElem pop [] hj, List.getD_eq_getElem pop [] hi]
    rw [List.pairwise_iff_getElem] at hd
    rcases Nat.lt_or_ge j i with hlt | hge
    · exact hd j i hj hi hlt
    · have hlt2 : i < j := by omega
      exact (hd i j hi hj hlt2).symm
  have hmem : pop.getD j [] ∈ pop.filter
      (fun t => decide (¬ t = pop.getD i [])) := by
    rw [List.mem_filter]
    refine ⟨?_, by simpa using hval⟩
    rw [List.getD_eq_getElem pop [] hj]
    exact List.getElem_mem hj
  rw [h] at hmem
  exact absurd hmem (List.not_mem_nil _)

theorem idkit_chosen_eq (pop : List Mat) (i : Nat)
    (h : idkit.other_tensor pop i ≠ []) :
    idkit.chosen pop i = (idkit.other_tensor pop i).getD
      (argminF ((idkit.other_tensor pop i).map
        (fun s => dist2 (pop.getD i []) s))).1 [] := by
  unfold idkit.chosen
  rw [chose_closest_ok _ _ h]

theorem idkit_crossing_over_ok (pop : List Mat) (rate : ℚ)
    (u : Nat → Nat → Nat → ℚ) (h2 : 2 ≤ pop.length)
    (hd : pop.Pairwise (· ≠ ·)) :
    idkit.crossing_over pop rate u = .ok ((List.range pop.length).map
      (fun i => mmapIdx (fun r c x =>
        if u i r c < rate then mget (idkit.chosen pop i) r c else x)
        (pop.getD i []))) := by
  unfold idkit.crossing_over
  apply mapExcept_ok_of
  intro i hmem
  have hi : i < pop.length := List.mem_range.mp hmem
  have hne := idkit_other_tensor_ne_nil pop i h2 hi hd
  rw [chose_closest_ok _ _ hne]
  rw [← idkit_chosen_eq pop i hne]

/-- Concrete members for witnesses and counterexamples: four 1 by 2
tensors whose mutual Euclidean distances are the integers 3, 4 and 5. -/
def wA : Mat := [[0, 0]]

/-- Second concrete member, at distance 3 from wA. -/
def wB : Mat := [[3, 0]]

/-- Third concrete member, at distance 4 from wA and 5 from wB. -/
def wC : Mat := [[0, 4]]

/-- Fourth concrete member, at distance 5 from wA, 4 from wB, 3 from
wC. -/
def wD : Mat := [[3, 4]]

/-- Population refuting the sum-of-distances culling rule: wA once, wB
twice, wC three times, wD once.  The sums of plain Euclidean distances
per member are 23, 22, 22, 17, 17, 17, 22 (maximal first at index 0)
while the sums of squared distances the code maximizes are 91, 100,
100, 75, 75, 75, 84 (maximal first at index 1). -/
def popC1 : List Mat := [wA, wB, wB, wC, wC, wC, wD]

/-- Constant one-half draw, a valid uniform draw from the unit
interval. -/
def uHalf : Nat → Nat → Nat → ℚ := fun _ _ _ => 1/2

/-- Constant zero draw. -/
def uZero : Nat → Nat → Nat → ℚ := fun _ _ _ => 0

/-- Constant unit noise draw. -/
def gOne : Nat → Nat → Nat → ℚ := fun _ _ _ => 1

/-- Stand-in for the square root inside torch.std; settled claims do
not depend on its values. -/
def sqZero : ℚ → ℚ := fun _ => 0


theorem sqrt_rat_eq (q : ℚ) (b : ℝ) (hb : 0 ≤ b) (h : (q : ℝ) = b ^ 2) :
    Real.sqrt ((q : ℝ)) = b := by
  rw [h, Real.sqrt_sq hb]

/-- C4 counterexample: on the 1-member population [wA] the code does
not fail with InsufficientPopulation as the claim states; it returns
the empty population as an ordinary result. -/
theorem c4_counterexample :
    idkit.remove_worst_tensor [wA] = .ok [] ∧
      ∀ e : AlgenError, idkit.remove_worst_tensor [wA] ≠ .error e := by
  refine ⟨by decide, fun e h => ?_⟩
  have hok : idkit.remove_worst_tensor [wA] = .ok [] := by decide
  rw [hok] at h
  exact Except.noConfusion h

/-- C4 amended: remove_worst_tensor never fails; for every population
it returns the population with the member at the aggregate argmax index
erased, hence exactly pop.length - 1 members (one fewer whenever the
population is nonempty, never two fewer in one call).  In particular a
1-member population yields the empty population and a 0-member
population yields the empty population, instead of the
InsufficientPopulation failure the specification prescribes below 2
members. -/
theorem c4_cull_total_one_fewer (pop : List Mat) :
    idkit.remove_worst_tensor pop
      = .ok (pop.eraseIdx (idkit.worstIdx pop)) ∧
    (pop.eraseIdx (idkit.worstIdx pop)).length = pop.length - 1 := by
  refine ⟨remove_worst_eq pop, ?_⟩
  cases pop with
  | nil => simp
  | cons x xs =>
    have h1 : 1 ≤ (x :: xs).length := by simp
    have hlt := worstIdx_lt (x :: xs) h1
    rw [List.length_eraseIdx, if_pos hlt]

/-- C7 counterexample: on the 0-member population crossing_over does
not fail at all, let alone with InsufficientPopulation: it returns the
empty population as an ordinary result. -/
theorem c7_counterexample :
    idkit.crossing_over ([] : List Mat) 0 uZero = .ok [] ∧
      ∀ e : AlgenError, idkit.crossing_over ([] : List Mat) 0 uZero
        ≠ .error e := by
  refine ⟨rfl, fun e h => ?_⟩
  have hok : idkit.crossing_over ([] : List Mat) 0 uZero = .ok [] := rfl
  rw [hok] at h
  exact Except.noConfusion h

/-- C7 amended: a 1-member population makes crossing_over fail, but
through the empty-candidate error of chose_closest_tensor (torch argmin
over an empty tensor, the EmptyInput kind), not through an
InsufficientPopulation check; a 0-member population does not fail and
returns the empty population. -/
theorem c7_cross_undersized (rate : ℚ) (u : Nat → Nat → Nat → ℚ) :
    idkit.crossing_over ([] : List Mat) rate u = .ok [] ∧
    ∀ m : Mat, idkit.crossing_over [m] rate u = .error .emptyInput := by
  constructor
  · rfl
  · intro m
    unfold idkit.crossing_over
    rw [show List.range (List.length [m]) = [0] from rfl]
    apply mapExcept_error_head
    have hother : idkit.other_tensor [m] 0 = [] := by
      unfold idkit.other_tensor
      simp
    simp only [List.getD_cons_zero, hother, chose_closest_nil]

/-- C3: for a rank-3 input, mode reconstruct combined with the
unrecognized scale value blend returns a result (the input members
unchanged) instead of failing, while the same combination on a rank-2
input fails with the ValueError naming the scale field and its allowed
values, mode add with the same scale on a rank-3 input fails the same
way, and an unrecognized mode on a rank-3 input fails naming the mode
field: the rank-3 reconstruct arm of mutate_img is missing its else
branch. -/
theorem c3_mutate_invalid_scale_bug :
    (idkit.mutate_img sqZero (.t3 [[[0, 0]]]) (1/20) "reconstruct" "blend"
      uHalf gOne).ret = .ok (.t3 [[[0, 0]]]) ∧
    (idkit.mutate_img sqZero (.t2 [[0, 0]]) (1/20) "reconstruct" "blend"
      uHalf gOne).ret
      = .error (.valueError "scale" ["partial", "total"] "blend") ∧
    (idkit.mutate_img sqZero (.t3 [[[0, 0]]]) (1/20) "add" "blend"
      uHalf gOne).ret
      = .error (.valueError "scale" ["partial", "total"] "blend") ∧
    (idkit.mutate_img sqZero (.t3 [[[0, 0]]]) (1/20) "blend" "partial"
      uHalf gOne).ret
      = .error (.valueError "mode" ["add", "reconstruct"] "blend") :=
  ⟨by decide, by decide, by decide, by decide⟩

/-- C9 counterexample: a rank-2 tensor mutated with the valid
combination mode add, scale total is written in place: after the call
the caller tensor holds the mutated values, no longer its original
ones. -/
theorem c9_counterexample :
    (idkit.mutate_img sqZero (.t2 [[1]]) (1/20) "add" "total"
      uHalf gOne).inputAfter = .t2 [[2]] ∧
    (idkit.mutate_img sqZero (.t2 [[1]]) (1/20) "add" "total"
      uHalf gOne).inputAfter ≠ .t2 [[1]] := by
  have h : (idkit.mutate_img sqZero (.t2 [[1]]) (1/20) "add" "total"
      uHalf gOne).inputAfter = .t2 [[2]] := by
    simp only [idkit.mutate_img, idkit.mutate2, mmapIdx, idxMap, gOne]
    norm_num
    rw [if_neg (by decide : ¬ ("total" : String) = "partial")]
  refine ⟨h, ?_⟩
  rw [h]
  intro hcontra
  have : ([[2]] : Mat) = [[1]] := TorchTensor.t2.inj hcontra
  simp at this

/-- C9 amended: mutate_img never writes through a rank-3 input (every
rank-3 path builds fresh tensors), and it leaves a rank-2 input intact
under reconstruct with total scale (that branch rebinds img_mut to a
fresh tensor); under mode add with either valid scale and under
reconstruct with partial scale, the rank-2 branch writes the returned
result into the caller tensor, so the input afterwards equals the
returned array rather than its original values. -/
theorem c9_mutate_frame (sqrtQ : ℚ → ℚ) (rate : ℚ) (mode scale : String)
    (u g : Nat → Nat → Nat → ℚ) :
    (∀ pop : List Mat,
      (idkit.mutate_img sqrtQ (.t3 pop) rate mode scale u g).inputAfter
        = .t3 pop) ∧
    (∀ m : Mat,
      (idkit.mutate_img sqrtQ (.t2 m) rate "reconstruct" "total"
        u g).inputAfter = .t2 m) ∧
    (∀ m : Mat, (mode = "add" ∧ (scale = "partial" ∨ scale = "total")) ∨
        (mode = "reconstruct" ∧ scale = "partial") →
      ∃ out : Mat,
        (idkit.mutate_img sqrtQ (.t2 m) rate mode scale u g).ret
          = .ok (.t2 out) ∧
        (idkit.mutate_img sqrtQ (.t2 m) rate mode scale u g).inputAfter
          = .t2 out) := by
  refine ⟨fun pop => rfl, fun m => rfl, fun m h => ?_⟩
  rcases h with ⟨hm, hs | hs⟩ | ⟨hm, hs⟩ <;> subst hm <;> subst hs <;>
    exact ⟨_, rfl, rfl⟩


theorem tvarU_nonneg (m : Mat) : 0 ≤ tvarU m := by
  unfold tvarU
  apply div_nonneg
  · apply List.sum_nonneg
    intro x hx
    rw [List.mem_map] at hx
    obtain ⟨y, -, rfl⟩ := hx
    exact sq_nonneg _
  · exact Nat.cast_nonneg _

namespace src

/-- The per-member aggregate std_tensor of remove_worst_tensor in
projet/src/algen.py: input_tensor.std(dim=(1, 2)) is the unbiased
standard deviation of each member over all of its components, the
square root of tvarU.  Variances are nonnegative (tvarU_nonneg) and
argmax is invariant under the strictly monotone square root, so the
embedding stores the variances. -/
def std_tensor (pop : List Mat) : List ℚ := pop.map (fun t => tvarU t)

/-- The index the src remove_worst_tensor removes: first argmax of the
per-member deviations. -/
def worstIdx (pop : List Mat) : Nat := (argmaxF (std_tensor pop)).1

/-- Function remove_worst_tensor of projet/src/algen.py.  Builds the
per-member deviations, the boolean keep-mask that is False exactly at
their argmax index, and keeps the other members.  Like the idkit
version it has no size guard and no raise statement: on an empty
population the Python comprehension never evaluates torch.argmax and
the mask selection returns the empty tensor, so every path returns,
and the result is wrapped in .ok only so that claims about failure are
statable. -/
def remove_worst_tensor (input_tensor : List Mat) :
    Except AlgenError (List Mat) :=
  .ok ((List.range input_tensor.length).filterMap
    (fun i => if i = worstIdx input_tensor then none
      else some (input_tensor.getD i [])))

end src

/-- Member i maximizes the per-member standard deviation (compared
through the unbiased variance tvarU, an equivalent comparison since
variances are nonnegative) and is the first index achieving the
maximum: the removal rule the src remove_worst_tensor actually
implements. -/
def IsVarWorst (pop : List Mat) (i : Nat) : Prop :=
  i < pop.length ∧
    (∀ j, j < pop.length →
      tvarU (pop.getD j []) ≤ tvarU (pop.getD i [])) ∧
    (∀ j, j < i → tvarU (pop.getD j []) < tvarU (pop.getD i []))

theorem src_remove_worst_eq (pop : List Mat) :
    src.remove_worst_tensor pop
      = .ok (pop.eraseIdx (src.worstIdx pop)) := by
  unfold src.remove_worst_tensor
  rw [maskFilter_eq_eraseIdx pop [] (src.worstIdx pop)]

theorem src_std_tensor_getD (pop : List Mat) (j : Nat)
    (hj : j < pop.length) :
    (src.std_tensor pop).getD j 0 = tvarU (pop.getD j []) := by
  unfold src.std_tensor
  exact getD_map _ pop [] 0 j hj

theorem src_worstIdx_lt (pop : List Mat) (h1 : 1 ≤ pop.length) :
    src.worstIdx pop < pop.length := by
  have hne : src.std_tensor pop ≠ [] := by
    unfold src.std_tensor
    intro h
    rw [List.map_eq_nil_iff] at h
    simp [h] at h1
  have := argmaxF_fst_lt (src.std_tensor pop) hne
  unfold src.worstIdx
  simpa [src.std_tensor] using this

theorem src_worstIdx_isVarWorst (pop : List Mat) (h1 : 1 ≤ pop.length) :
    IsVarWorst pop (src.worstIdx pop) := by
  have hlt := src_worstIdx_lt pop h1
  have hgetD : (src.std_tensor pop).getD
      (argmaxF (src.std_tensor pop)).1 0
      = tvarU (pop.getD (src.worstIdx pop) []) :=
    src_std_tensor_getD pop (src.worstIdx pop) hlt
  have hmax := argmaxF_getD (src.std_tensor pop)
  refine ⟨hlt, ?_, ?_⟩
  · intro j hj
    have ha := argmaxF_ge (src.std_tensor pop) j
      (by simpa [src.std_tensor] using hj)
    rw [src_std_tensor_getD pop j hj, ← hmax, hgetD] at ha
    exact ha
  · intro j hj
    have hj2 : j < pop.length := lt_trans hj hlt
    have ha := argmaxF_first (src.std_tensor pop) j hj
    rw [src_std_tensor_getD pop j hj2, ← hmax, hgetD] at ha
    exact ha

/-- Population refuting the sum-of-distances culling rule for the src
variant: wC once, wA once, wD three times.  The sums of plain Euclidean
distances per member are 13, 19, 8, 8, 8 (maximal at index 1) while
the per-member variances the src code maximizes through the standard
deviation are 8, 0, 1/2, 1/2, 1/2 (maximal at index 0). -/
def popC1src : List Mat := [wC, wA, wD, wD, wD]

theorem sqrt_eq_of_sq (a b : ℝ) (hb : 0 ≤ b) (h : a = b ^ 2) :
    Real.sqrt a = b := by
  rw [h, Real.sqrt_sq hb]

theorem popC1_worstIdx : idkit.worstIdx popC1 = 1 := by
  norm_num [idkit.worstIdx, idkit.dist_tensor, popC1, wA, wB, wC, wD, dist2,
    argmaxF]

theorem popC1_not_sumDistLe : ¬ sumDistLe popC1 0 1 := by
  intro hle
  unfold sumDistLe at hle
  rw [show popC1.length = 7 from rfl] at hle
  simp only [Finset.sum_range_succ, Finset.sum_range_zero] at hle
  norm_num [popC1, wA, wB, wC, wD, dist2] at hle
  have h9 : Real.sqrt ((9 : ℝ)) = 3 := sqrt_eq_of_sq 9 3 (by norm_num) (by norm_num)
  have h16 : Real.sqrt ((16 : ℝ)) = 4 := sqrt_eq_of_sq 16 4 (by norm_num) (by norm_num)
  have h25 : Real.sqrt ((25 : ℝ)) = 5 := sqrt_eq_of_sq 25 5 (by norm_num) (by norm_num)
  rw [h9, h16, h25] at hle
  norm_num at hle

theorem popC1src_worstIdx : src.worstIdx popC1src = 0 := by
  norm_num [src.worstIdx, src.std_tensor, popC1src, wA, wC, wD, tvarU,
    tmean, argmaxF]

theorem popC1src_not_sumDistLe : ¬ sumDistLe popC1src 1 0 := by
  intro hle
  unfold sumDistLe at hle
  rw [show popC1src.length = 5 from rfl] at hle
  simp only [Finset.sum_range_succ, Finset.sum_range_zero] at hle
  norm_num [popC1src, wA, wC, wD, dist2] at hle
  have h9 : Real.sqrt ((9 : ℝ)) = 3 :=
    sqrt_eq_of_sq 9 3 (by norm_num) (by norm_num)
  have h16 : Real.sqrt ((16 : ℝ)) = 4 :=
    sqrt_eq_of_sq 16 4 (by norm_num) (by norm_num)
  have h25 : Real.sqrt ((25 : ℝ)) = 5 :=
    sqrt_eq_of_sq 25 5 (by norm_num) (by norm_num)
  rw [h9, h16, h25] at hle
  norm_num at hle

/-- C1 counterexample, one population per cited implementation.  In
popC1 the member maximizing the sum of pairwise Euclidean distances
sits at index 0 (sum 23 against 22, 22, 17), yet the idkit
remove_worst_tensor removes the member at index 1, whose sum of
squared distances, 100, is the first maximum of the aggregate that
variant computes.  In popC1src the spec-maximal member sits at index 1
(sum 19 against 13, 8, 8, 8), yet the src remove_worst_tensor removes
the member at index 0, whose per-member deviation is maximal.  Neither
removed member is the one the claim prescribes. -/
theorem c1_counterexample :
    (2 ≤ popC1.length ∧
      idkit.remove_worst_tensor popC1 = .ok (popC1.eraseIdx 1) ∧
      ¬ IsSpecWorst popC1 (idkit.worstIdx popC1)) ∧
    (2 ≤ popC1src.length ∧
      src.remove_worst_tensor popC1src = .ok (popC1src.eraseIdx 0) ∧
      ¬ IsSpecWorst popC1src (src.worstIdx popC1src)) := by
  refine ⟨⟨by decide, ?_, ?_⟩, ⟨by decide, ?_, ?_⟩⟩
  · rw [remove_worst_eq popC1, popC1_worstIdx]
  · rw [popC1_worstIdx]
    rintro ⟨-, hall, -⟩
    exact popC1_not_sumDistLe (hall 0 (by norm_num [popC1]))
  · rw [src_remove_worst_eq popC1src, popC1src_worstIdx]
  · rw [popC1src_worstIdx]
    rintro ⟨-, hall, -⟩
    exact popC1src_not_sumDistLe (hall 1 (by norm_num [popC1src]))

/-- C1 corrected: for every population of at least 2 members the idkit
remove_worst_tensor removes exactly the member whose sum of squared
pairwise distances is maximal (the square of the broadcast torch.dist
of the member against the whole population tensor), and the src
remove_worst_tensor removes exactly the member whose standard deviation
over its own components is maximal (compared through the unbiased
variance), each breaking ties by the first index achieving its maximum;
neither variant removes the member with the maximal sum of plain
pairwise Euclidean distances that the specification prescribes. -/
theorem c1_cull_implemented_rules (pop : List Mat)
    (h2 : 2 ≤ pop.length) :
    (idkit.remove_worst_tensor pop
        = .ok (pop.eraseIdx (idkit.worstIdx pop)) ∧
      IsSqWorst pop (idkit.worstIdx pop)) ∧
    (src.remove_worst_tensor pop
        = .ok (pop.eraseIdx (src.worstIdx pop)) ∧
      IsVarWorst pop (src.worstIdx pop)) :=
  ⟨⟨remove_worst_eq pop, worstIdx_isSqWorst pop (le_trans (by norm_num) h2)⟩,
   ⟨src_remove_worst_eq pop,
    src_worstIdx_isVarWorst pop (le_trans (by norm_num) h2)⟩⟩

/-- Witness for c1_cull_implemented_rules at the 2-member population
[wA, wB]. -/
theorem c1_witness :
    2 ≤ ([wA, wB] : List Mat).length ∧
    ((idkit.remove_worst_tensor [wA, wB]
        = .ok (([wA, wB] : List Mat).eraseIdx (idkit.worstIdx [wA, wB])) ∧
      IsSqWorst [wA, wB] (idkit.worstIdx [wA, wB])) ∧
     (src.remove_worst_tensor [wA, wB]
        = .ok (([wA, wB] : List Mat).eraseIdx (src.worstIdx [wA, wB])) ∧
      IsVarWorst [wA, wB] (src.worstIdx [wA, wB]))) :=
  ⟨by decide, c1_cull_implemented_rules [wA, wB] (by decide)⟩

/-- C8: chose_closest_tensor returns the first candidate in iteration
order that minimizes the Euclidean distance to the target: the chosen
candidate is at most as far as every candidate (distLeReal) and every
earlier candidate is strictly farther; on an empty candidate sequence
it fails with the empty-input error of torch argmin. -/
theorem c8_closest_first_minimizer (t : Mat) (cands : List Mat) :
    (cands = [] → chose_closest_tensor t cands = .error .emptyInput) ∧
    (cands ≠ [] → ∃ k : Nat, k < cands.length ∧
      chose_closest_tensor t cands = .ok (cands.getD k []) ∧
      (∀ j, j < cands.length →
        distLeReal t (cands.getD k []) (cands.getD j [])) ∧
      (∀ j, j < k → ¬ distLeReal t (cands.getD j []) (cands.getD k []))) := by
  constructor
  · intro h
    subst h
    rfl
  · intro hne
    have hsne : cands.map (fun s => dist2 t s) ≠ [] := by
      intro h
      rw [List.map_eq_nil_iff] at h
      exact hne h
    have hklt : (argminF (cands.map (fun s => dist2 t s))).1
        < cands.length := by
      have := argminF_fst_lt _ hsne
      simpa using this
    have hval : ∀ j, j < cands.length →
        (cands.map (fun s => dist2 t s)).getD j 0
          = dist2 t (cands.getD j []) :=
      fun j hj => getD_map _ cands [] 0 j hj
    have hsnd : (argminF (cands.map (fun s => dist2 t s))).2
        = dist2 t (cands.getD
            (argminF (cands.map (fun s => dist2 t s))).1 []) := by
      rw [← argminF_getD (cands.map (fun s => dist2 t s))]
      exact hval _ hklt
    refine ⟨(argminF (cands.map (fun s => dist2 t s))).1, hklt,
      chose_closest_ok t cands hne, ?_, ?_⟩
    · intro j hj
      have h1 := argminF_le (cands.map (fun s => dist2 t s)) j
        (by simpa using hj)
      rw [hval j hj, hsnd] at h1
      unfold distLeReal
      apply Real.sqrt_le_sqrt
      exact_mod_cast h1
    · intro j hj
      have h1 := argminF_first (cands.map (fun s => dist2 t s)) j hj
      rw [hval j (lt_trans hj hklt), hsnd] at h1
      unfold distLeReal
      rw [not_le]
      apply Real.sqrt_lt_sqrt
      · exact_mod_cast dist2_nonneg t (cands.getD _ [])
      · exact_mod_cast h1

/-- Witness for c8_closest_first_minimizer: the empty-candidate case at
the target wA and the nonempty case at candidates [wB, wC]. -/
theorem c8_witness :
    chose_closest_tensor wA [] = .error .emptyInput ∧
    (∃ k : Nat, k < ([wB, wC] : List Mat).length ∧
      chose_closest_tensor wA [wB, wC]
        = .ok (([wB, wC] : List Mat).getD k []) ∧
      (∀ j, j < ([wB, wC] : List Mat).length →
        distLeReal wA (([wB, wC] : List Mat).getD k [])
          (([wB, wC] : List Mat).getD j [])) ∧
      (∀ j, j < k → ¬ distLeReal wA (([wB, wC] : List Mat).getD j [])
          (([wB, wC] : List Mat).getD k []))) :=
  ⟨(c8_closest_first_minimizer wA []).1 rfl,
   (c8_closest_first_minimizer wA [wB, wC]).2 (by decide)⟩

theorem mapExcept_ok_length (f : α → Except ε β) :
    ∀ (l : List α) (ys : List β), mapExcept f l = .ok ys →
      ys.length = l.length := by
  intro l
  induction l with
  | nil =>
    intro ys h
    simp only [mapExcept] at h
    injection h with h1
    subst h1
    rfl
  | cons x xs ih =>
    intro ys h
    simp only [mapExcept] at h
    cases hfx : f x with
    | error e => rw [hfx] at h; exact Except.noConfusion h
    | ok y =>
      rw [hfx] at h
      cases hrest : mapExcept f xs with
      | error e => rw [hrest] at h; exact Except.noConfusion h
      | ok ys2 =>
        rw [hrest] at h
        injection h with h1
        subst h1
        simp [ih ys2 hrest]

theorem idkit_crossing_over_length (pop : List Mat) (rate : ℚ)
    (u : Nat → Nat → Nat → ℚ) (out : List Mat)
    (h : idkit.crossing_over pop rate u = .ok out) :
    out.length = pop.length := by
  unfold idkit.crossing_over at h
  have := mapExcept_ok_length _ _ _ h
  simpa using this

/-- C5: every output member of crossing_over is computed from the
unmodified input population only: the result is exactly the
range-indexed map in which member i keeps its own components and takes
the donor components from the member chosen out of the input snapshot;
order and population size are preserved, and no output member is read
while building another.  First conjunct: the src variant (index-based
exclusion) on any population of at least 2 members; second conjunct:
the idkit variant (value-based exclusion) under pairwise distinct
members. -/
theorem c5_cross_snapshot (pop : List Mat) (rate : ℚ)
    (u : Nat → Nat → Nat → ℚ) (h2 : 2 ≤ pop.length) :
    (∃ out, src.crossing_over pop rate u = .ok out ∧
      out.length = pop.length ∧
      ∀ i, i < pop.length → out.getD i []
        = mmapIdx (fun r c x =>
            if u i r c < rate then mget (src.chosen pop i) r c else x)
          (pop.getD i [])) ∧
    (pop.Pairwise (· ≠ ·) →
      ∃ out, idkit.crossing_over pop rate u = .ok out ∧
        out.length = pop.length ∧
        ∀ i, i < pop.length → out.getD i []
          = mmapIdx (fun r c x =>
              if u i r c < rate then mget (idkit.chosen pop i) r c else x)
            (pop.getD i [])) := by
  constructor
  · refine ⟨_, src_crossing_over_ok pop rate u h2, by simp, ?_⟩
    intro i hi
    exact getD_map_range pop.length [] _ i hi
  · intro hd
    refine ⟨_, idkit_crossing_over_ok pop rate u h2 hd, by simp, ?_⟩
    intro i hi
    exact getD_map_range pop.length [] _ i hi

/-- Witness for c5_cross_snapshot at the distinct 2-member population
[wA, wB] with rate 0 and the constant zero draw. -/
theorem c5_witness :
    (∃ out, src.crossing_over [wA, wB] 0 uZero = .ok out ∧
      out.length = ([wA, wB] : List Mat).length ∧
      ∀ i, i < ([wA, wB] : List Mat).length → out.getD i []
        = mmapIdx (fun r c x =>
            if uZero i r c < 0 then mget (src.chosen [wA, wB] i) r c else x)
          (([wA, wB] : List Mat).getD i [])) ∧
    (∃ out, idkit.crossing_over [wA, wB] 0 uZero = .ok out ∧
      out.length = ([wA, wB] : List Mat).length ∧
      ∀ i, i < ([wA, wB] : List Mat).length → out.getD i []
        = mmapIdx (fun r c x =>
            if uZero i r c < 0 then mget (idkit.chosen [wA, wB] i) r c else x)
          (([wA, wB] : List Mat).getD i [])) :=
  ⟨(c5_cross_snapshot [wA, wB] 0 uZero (by decide)).1,
   (c5_cross_snapshot [wA, wB] 0 uZero (by decide)).2 (by decide)⟩

/-- C6: with rate 0 crossing_over returns a population equal to its
input, and with rate 1 every component of every output member equals
the corresponding component of that member's nearest-neighbour donor,
under the hypothesis (true of torch.rand) that all draws lie in the
unit interval; src variant on any population of at least 2 members,
idkit variant under pairwise distinct members. -/
theorem c6_cross_rate_extremes (pop : List Mat) (nr nc : Nat)
    (u : Nat → Nat → Nat → ℚ) (h2 : 2 ≤ pop.length)
    (hwf : PopWF nr nc pop)
    (hu : ∀ i p q, 0 ≤ u i p q ∧ u i p q < 1) :
    (src.crossing_over pop 0 u = .ok pop) ∧
    (∃ out, src.crossing_over pop 1 u = .ok out ∧
      ∀ i p q, i < pop.length → p < nr → q < nc →
        mget (out.getD i []) p q = mget (src.chosen pop i) p q) ∧
    (pop.Pairwise (· ≠ ·) →
      (idkit.crossing_over pop 0 u = .ok pop) ∧
      (∃ out, idkit.crossing_over pop 1 u = .ok out ∧
        ∀ i p q, i < pop.length → p < nr → q < nc →
          mget (out.getD i []) p q = mget (idkit.chosen pop i) p q)) := by
  have hmem : ∀ i, i < pop.length → MatWF nr nc (pop.getD i []) := by
    intro i hi
    rw [List.getD_eq_getElem pop [] hi]
    exact hwf _ (List.getElem_mem hi)
  have hmask0 : ∀ donor : Nat → Mat,
      ((List.range pop.length).map (fun i =>
        mmapIdx (fun r c x => if u i r c < 0 then mget (donor i) r c else x)
          (pop.getD i []))) = pop := by
    intro donor
    have hfun : ∀ i ∈ List.range pop.length,
        mmapIdx (fun r c x => if u i r c < 0 then mget (donor i) r c else x)
          (pop.getD i []) = pop.getD i [] := by
      intro i _
      have h : ∀ r c x,
          (if u i r c < 0 then mget (donor i) r c else x) = x :=
        fun r c x => if_neg (not_lt.mpr (hu i r c).1)
      rw [mmapIdx_congr (pop.getD i []) h, mmapIdx_id]
    rw [List.map_congr_left hfun]
    exact range_map_getD pop []
  have hmask1 : ∀ (donor : Nat → Mat) (i p q : Nat), i < pop.length →
      p < nr → q < nc →
      mget (mmapIdx (fun r c x =>
          if u i r c < 1 then mget (donor i) r c else x)
        (pop.getD i [])) p q = mget (donor i) p q := by
    intro donor i p q hi hp hq
    have hm := hmem i hi
    have hrow : p < (pop.getD i []).length := by
      rw [hm.1]
      exact hp
    have hcol : q < ((pop.getD i []).getD p []).length := by
      have hrmem : (pop.getD i []).getD p [] ∈ pop.getD i [] := by
        rw [List.getD_eq_getElem _ [] hrow]
        exact List.getElem_mem hrow
      rw [hm.2 _ hrmem]
      exact hq
    rw [mget_mmapIdx _ _ p q hrow hcol, if_pos (hu i p q).2]
  refine ⟨?_, ?_, fun hd => ⟨?_, ?_⟩⟩
  · rw [src_crossing_over_ok pop 0 u h2, hmask0 (src.chosen pop)]
  · refine ⟨_, src_crossing_over_ok pop 1 u h2, ?_⟩
    intro i p q hi hp hq
    rw [getD_map_range pop.length [] _ i hi]
    exact hmask1 (src.chosen pop) i p q hi hp hq
  · rw [idkit_crossing_over_ok pop 0 u h2 hd, hmask0 (idkit.chosen pop)]
  · refine ⟨_, idkit_crossing_over_ok pop 1 u h2 hd, ?_⟩
    intro i p q hi hp hq
    rw [getD_map_range pop.length [] _ i hi]
    exact hmask1 (idkit.chosen pop) i p q hi hp hq

/-- Witness for c6_cross_rate_extremes at the distinct 2-member
population [wA, wB] of 1 by 2 members with the constant zero draw. -/
theorem c6_witness :
    (src.crossing_over [wA, wB] 0 uZero = .ok [wA, wB]) ∧
    (∃ out, src.crossing_over [wA, wB] 1 uZero = .ok out ∧
      ∀ i p q, i < ([wA, wB] : List Mat).length → p < 1 → q < 2 →
        mget (out.getD i []) p q = mget (src.chosen [wA, wB] i) p q) ∧
    (idkit.crossing_over [wA, wB] 0 uZero = .ok [wA, wB]) ∧
    (∃ out, idkit.crossing_over [wA, wB] 1 uZero = .ok out ∧
      ∀ i p q, i < ([wA, wB] : List Mat).length → p < 1 → q < 2 →
        mget (out.getD i []) p q = mget (idkit.chosen [wA, wB] i) p q) := by
  have h := c6_cross_rate_extremes [wA, wB] 1 2 uZero (by decide)
    (by decide) (by intro i p q; constructor <;> norm_num [uZero])
  have hidkit := h.2.2 (by decide)
  exact ⟨h.1, h.2.1, hidkit.1, hidkit.2⟩

/-- C2: create_new_images applies crossing_over twice, each pass to the
same original encoded population (neither pass consumes the output of
the other), concatenates the two results with the first pass's members
first, and culls the 6-member concatenation once to 5 members with
remove_worst_tensor before any decoding; each pass of a 3-member
population yields 3 members. -/
theorem c2_generate_pipeline (pop : List Mat) (u1 u2 : Nat → Nat → Nat → ℚ)
    (h3 : pop.length = 3) (hd : pop.Pairwise (· ≠ ·)) :
    ∃ c1 c2 : List Mat,
      idkit.crossing_over pop (1/2) u1 = .ok c1 ∧
      idkit.crossing_over pop (1/2) u2 = .ok c2 ∧
      c1.length = 3 ∧ c2.length = 3 ∧
      idkit.create_new_images pop u1 u2
        = idkit.remove_worst_tensor (c1 ++ c2) ∧
      (c1 ++ c2).length = 6 ∧
      ∃ out, idkit.create_new_images pop u1 u2 = .ok out ∧
        out.length = 5 := by
  have h2 : 2 ≤ pop.length := by omega
  obtain ⟨c1, hc1⟩ : ∃ c1, idkit.crossing_over pop (1/2) u1 = .ok c1 :=
    ⟨_, idkit_crossing_over_ok pop (1/2) u1 h2 hd⟩
  obtain ⟨c2, hc2⟩ : ∃ c2, idkit.crossing_over pop (1/2) u2 = .ok c2 :=
    ⟨_, idkit_crossing_over_ok pop (1/2) u2 h2 hd⟩
  have hl1 : c1.length = 3 := by
    rw [idkit_crossing_over_length pop _ u1 c1 hc1, h3]
  have hl2 : c2.length = 3 := by
    rw [idkit_crossing_over_length pop _ u2 c2 hc2, h3]
  have hcreate : idkit.create_new_images pop u1 u2
      = idkit.remove_worst_tensor (c1 ++ c2) := by
    unfold idkit.create_new_images
    rw [hc1, hc2]
  have hl12 : (c1 ++ c2).length = 6 := by
    rw [List.length_append, hl1, hl2]
  have hworst : idkit.worstIdx (c1 ++ c2) < (c1 ++ c2).length :=
    worstIdx_lt _ (by omega)
  refine ⟨c1, c2, hc1, hc2, hl1, hl2, hcreate, hl12,
    (c1 ++ c2).eraseIdx (idkit.worstIdx (c1 ++ c2)), ?_, ?_⟩
  · rw [hcreate, remove_worst_eq]
  · rw [List.length_eraseIdx, if_pos hworst, hl12]

/-- Witness for c2_generate_pipeline at the distinct 3-member
population [wA, wB, wC] with the constant one-half draws. -/
theorem c2_witness :
    ([wA, wB, wC] : List Mat).length = 3 ∧
    (∃ c1 c2 : List Mat,
      idkit.crossing_over [wA, wB, wC] (1/2) uHalf = .ok c1 ∧
      idkit.crossing_over [wA, wB, wC] (1/2) uHalf = .ok c2 ∧
      c1.length = 3 ∧ c2.length = 3 ∧
      idkit.create_new_images [wA, wB, wC] uHalf uHalf
        = idkit.remove_worst_tensor (c1 ++ c2) ∧
      (c1 ++ c2).length = 6 ∧
      ∃ out, idkit.create_new_images [wA, wB, wC] uHalf uHalf = .ok out ∧
        out.length = 5) :=
  ⟨by decide,
   c2_generate_pipeline [wA, wB, wC] uHalf uHalf (by decide) (by decide)⟩

/-- C10: the idkit crossing_over builds its candidate sets by value
equality, not by index: a member elementwise equal to the member at
index i is never in index i's candidate set (so two equal copies
exclude each other), and on a population of n equal members (any
n at least 2) every candidate set is empty and the operation fails
with the empty-input error even though the population size is at
least 2. -/
theorem c10_value_exclusion (rate : ℚ) (u : Nat → Nat → Nat → ℚ) :
    (∀ (pop : List Mat) (i j : Nat), i < pop.length → j < pop.length →
      i ≠ j → pop.getD i [] = pop.getD j [] →
      pop.getD j [] ∉ idkit.other_tensor pop i) ∧
    (∀ (m : Mat) (n : Nat), 2 ≤ n →
      idkit.crossing_over (List.replicate n m) rate u
        = .error .emptyInput) := by
  constructor
  · intro pop i j _ _ _ heq hmem
    unfold idkit.other_tensor at hmem
    rw [List.mem_filter] at hmem
    have hne := hmem.2
    simp only [decide_eq_true_eq] at hne
    exact hne heq.symm
  · intro m n hn
    obtain ⟨k, rfl⟩ : ∃ k, n = k + 1 := ⟨n - 1, by omega⟩
    unfold idkit.crossing_over
    rw [show (List.replicate (k + 1) m).length = k + 1 from by simp,
      List.range_succ_eq_map]
    apply mapExcept_error_head
    have hget : (List.replicate (k + 1) m).getD 0 [] = m := by simp
    have hother : idkit.other_tensor (List.replicate (k + 1) m) 0 = [] := by
      unfold idkit.other_tensor
      rw [List.filter_eq_nil_iff]
      intro a ha
      rw [List.eq_of_mem_replicate ha, hget]
      simp
    simp only [hget, hother, chose_closest_nil]

/-- Witness for c10_value_exclusion: in [wA, wA] the copy at index 1 is
not in the candidate set of index 0, and crossing_over fails on the
2-member all-equal population. -/
theorem c10_witness :
    ([wA, wA] : List Mat).getD 1 [] ∉ idkit.other_tensor [wA, wA] 0 ∧
    idkit.crossing_over (List.replicate 2 wA) 0 uZero
      = .error .emptyInput :=
  ⟨(c10_value_exclusion 0 uZero).1 [wA, wA] 0 1 (by decide) (by decide)
      (by decide) (by decide),
   (c10_value_exclusion 0 uZero).2 wA 2 (by decide)⟩

/-- Witness for c9_mutate_frame: the rank-3 frame fact, the rank-2
reconstruct total frame fact and the rank-2 in-place fact for mode add
with partial scale, at a 1 by 1 tensor of value 5. -/
theorem c9_witness :
    ((idkit.mutate_img sqZero (.t3 [[[5]]]) 0 "add" "partial"
        uZero gOne).inputAfter = .t3 [[[5]]]) ∧
    ((idkit.mutate_img sqZero (.t2 [[5]]) 0 "reconstruct" "total"
        uZero gOne).inputAfter = .t2 [[5]]) ∧
    (∃ out : Mat,
      (idkit.mutate_img sqZero (.t2 [[5]]) 0 "add" "partial"
        uZero gOne).ret = .ok (.t2 out) ∧
      (idkit.mutate_img sqZero (.t2 [[5]]) 0 "add" "partial"
        uZero gOne).inputAfter = .t2 out) :=
  ⟨(c9_mutate_frame sqZero 0 "add" "partial" uZero gOne).1 [[[5]]],
   (c9_mutate_frame sqZero 0 "reconstruct" "total" uZero gOne).2.1 [[5]],
   (c9_mutate_frame sqZero 0 "add" "partial" uZero gOne).2.2 [[5]]
     (Or.inl ⟨rfl, Or.inl rfl⟩)⟩
